import Mathlib

/-!
# fast-md: verification of the build-pipeline specification

A shallow embedding, in Lean 4, of the core of the `fast-md` static-site
generator (`src/index.ts`): the orphan-image collector, the remote-image
externalizer, the sanitizing renderer, the navigation builder, and the
debounced dev-loop.  Each section states the definitions translated from
the TypeScript source, then the theorems settling the specification's
claims about them.
-/

namespace FastMd

/-! ## Orphan collector (`cleanupOrphanedImages`)

The output directory is modelled one level deep: the files that sit
directly in it (each with a flag saying whether the OS will let
`fs.unlinkSync` remove it) and its immediate subdirectories together with
the file names those contain.  `fs.readdirSync(imageDir)` is
non-recursive and lists both files and subdirectory names, which is
exactly what `listing` returns.  `fs.unlinkSync` on a directory fails
(EISDIR/EPERM), and the source wraps the sweep in no try/catch, so a
failed deletion aborts the loop: the sweep returns the partial directory
state together with the error, mirroring the exception propagating out
of `cleanupOrphanedImages`.
-/

namespace Cleanup

/-- The image-extension allow list from `cleanupOrphanedImages`. -/
def imageExtensions : List String := [".png", ".jpg", ".jpeg", ".gif", ".svg", ".webp"]

/-- Model of Node's `path.extname` on a bare file name (no slashes): the
suffix starting at the last dot, or `""` when there is no dot or the
only relevant dot is the leading character. -/
def extname (name : String) : String :=
  let cs := name.toList
  let pre := cs.reverse.takeWhile (fun c => c ≠ '.')
  if pre.length = cs.length ∨ pre.length + 1 = cs.length then ""
  else String.mk ('.' :: pre.reverse)

/-- JavaScript's `toLowerCase`, written as a character map so that it
evaluates by computation. -/
def lowerStr (s : String) : String := String.mk (s.toList.map Char.toLower)

/-- The check `imageExtensions.includes(path.extname(file).toLowerCase())`. -/
def isImage (name : String) : Bool :=
  imageExtensions.contains (lowerStr (extname name))

/-- The output directory (`publicDir = imageDir` in the source), as a
path prefix; the source computes it as `path.join(process.cwd(), "public")`. -/
def imageDir : String := "public"

/-- The full path `path.join(imageDir, file)`. -/
def fullPath (name : String) : String := imageDir ++ "/" ++ name

/-- A file directly in the output directory: its name and whether the OS
will allow `fs.unlinkSync` to remove it. -/
structure FileEntry where
  name : String
  deletable : Bool
deriving DecidableEq, Repr

/-- The output directory: its direct files, and its immediate
subdirectories with the names of the files inside each. -/
structure OutDir where
  files : List FileEntry
  subdirs : List (String × List String)
deriving DecidableEq, Repr

/-- Model of `fs.readdirSync(imageDir)`: the names of every direct entry, files
and subdirectories alike, with no recursion into subdirectories. -/
def listing (d : OutDir) : List String :=
  d.files.map (fun f => f.name) ++ d.subdirs.map (fun s => s.1)

/-- Model of `fs.unlinkSync(path.join(imageDir, name))`: removing a directory or a
non-deletable file throws (returned as `some errorPath`); otherwise the
file entries with that name are removed. -/
def unlink (d : OutDir) (name : String) : OutDir × Option String :=
  if d.subdirs.any (fun s => s.1 == name) then (d, some (fullPath name))
  else if d.files.any (fun f => f.name == name && !f.deletable) then (d, some (fullPath name))
  else ({ d with files := d.files.filter (fun f => f.name ≠ name) }, none)

/-- The `for (const file of filesInDir)` loop of `cleanupOrphanedImages`:
delete every listed entry whose lower-cased extension is an image
extension and whose full path is not in `allUsedImages` (`touched`).
There is no try/catch in the source, so the first failing deletion
aborts the loop, leaving the partial state. -/
def sweep (touched : List String) : List String → OutDir → OutDir × Option String
  | [], d => (d, none)
  | n :: rest, d =>
    if isImage n && !(touched.contains (fullPath n)) then
      match unlink d n with
      | (d', none) => sweep touched rest d'
      | (d', some e) => (d', some e)
    else sweep touched rest d

/-- The collector `cleanupOrphanedImages`: a no-op when the output directory does not
exist (`!fs.existsSync(imageDir)`), otherwise the sweep over the
directory listing. -/
def cleanupOrphanedImages (touched : List String) : Option OutDir → Option OutDir × Option String
  | none => (none, none)
  | some d => (some (sweep touched (listing d) d).1, (sweep touched (listing d) d).2)

/-- A name is deleted by the sweep only when it is an orphaned image:
image extension and full path not in the touched set. -/
def orphaned (touched : List String) (name : String) : Bool :=
  isImage name && !(touched.contains (fullPath name))

theorem unlink_cases (d : OutDir) (n : String) :
    unlink d n = (d, some (fullPath n)) ∨
    unlink d n = ({ d with files := d.files.filter (fun f => f.name ≠ n) }, none) := by
  unfold unlink
  by_cases h1 : (d.subdirs.any (fun s => s.1 == n)) = true
  · left; rw [if_pos h1]
  · rw [if_neg h1]
    by_cases h2 : (d.files.any (fun f => f.name == n && !f.deletable)) = true
    · left; rw [if_pos h2]
    · right; rw [if_neg h2]

theorem sweep_subset (touched : List String) :
    ∀ (names : List String) (d : OutDir) (f : FileEntry),
      f ∈ (sweep touched names d).1.files → f ∈ d.files := by
  intro names
  induction names with
  | nil => intro d f hf; simpa [sweep] using hf
  | cons n rest ih =>
    intro d f hf
    rw [sweep] at hf
    by_cases hc : (isImage n && !(touched.contains (fullPath n))) = true
    · rw [if_pos hc] at hf
      rcases unlink_cases d n with hu | hu <;> rw [hu] at hf
      · exact hf
      · exact List.mem_of_mem_filter (ih _ f hf)
    · rw [if_neg hc] at hf
      exact ih d f hf

theorem sweep_preserves (touched : List String) :
    ∀ (names : List String) (d : OutDir) (f : FileEntry),
      f ∈ d.files → orphaned touched f.name = false →
      f ∈ (sweep touched names d).1.files := by
  intro names
  induction names with
  | nil => intro d f hf _; simpa [sweep] using hf
  | cons n rest ih =>
    intro d f hf hno
    rw [sweep]
    by_cases hc : (isImage n && !(touched.contains (fullPath n))) = true
    · rw [if_pos hc]
      rcases unlink_cases d n with hu | hu <;> rw [hu]
      · exact hf
      · apply ih _ f _ hno
        apply List.mem_filter.2
        refine ⟨hf, ?_⟩
        simp only [decide_eq_true_eq]
        intro hEq
        unfold orphaned at hno
        rw [hEq] at hno
        rw [hc] at hno
        exact Bool.noConfusion hno
    · rw [if_neg hc]; exact ih d f hf hno

/-- The sweep of a concatenated listing runs the first part, and continues
with the second only when the first raised no error. -/
theorem sweep_append (touched : List String) :
    ∀ (xs ys : List String) (d : OutDir),
      sweep touched (xs ++ ys) d =
        match sweep touched xs d with
        | (d', none) => sweep touched ys d'
        | (d', some e) => (d', some e) := by
  intro xs
  induction xs with
  | nil => intro ys d; simp [sweep]
  | cons n rest ih =>
    intro ys d
    rw [List.cons_append, sweep, sweep]
    by_cases hc : (isImage n && !(touched.contains (fullPath n))) = true
    · rw [if_pos hc, if_pos hc]
      rcases unlink_cases d n with hu | hu
      · rw [hu]
      · rw [hu]; exact ih ys _
    · rw [if_neg hc, if_neg hc]; exact ih ys d

theorem sweep_error_none (touched : List String) :
    ∀ (names : List String) (d : OutDir) (n : String),
      (sweep touched names d).2 = none → n ∈ names →
      orphaned touched n = true →
      ∀ f ∈ (sweep touched names d).1.files, f.name ≠ n := by
  intro names
  induction names with
  | nil => intro d n _ hmem; exact absurd hmem (List.not_mem_nil n)
  | cons m rest ih =>
    intro d n herr hmem horph f hf
    rw [sweep] at herr hf
    by_cases hc : (isImage m && !(touched.contains (fullPath m))) = true
    · rw [if_pos hc] at herr hf
      rcases unlink_cases d m with hu | hu <;> rw [hu] at herr hf
      · exact absurd herr (by simp)
      · rcases List.mem_cons.1 hmem with hnm | hnm
        · subst hnm
          intro hEq
          have hin : f ∈ OutDir.files { d with files := d.files.filter (fun f => f.name ≠ n) } :=
            sweep_subset touched rest _ f hf
          have := (List.mem_filter.1 hin).2
          rw [hEq] at this
          simp at this
        · exact ih _ n herr hnm horph f hf
    · rw [if_neg hc] at herr hf
      rcases List.mem_cons.1 hmem with hnm | hnm
      · subst hnm
        unfold orphaned at horph
        rw [horph] at hc
        exact absurd rfl hc
      · exact ih d n herr hnm horph f hf

/-- Deleting a file never touches the `subdirs` component: the listing is
non-recursive and `unlink` only removes direct files. -/
theorem sweep_subdirs (touched : List String) :
    ∀ (names : List String) (d : OutDir),
      (sweep touched names d).1.subdirs = d.subdirs := by
  intro names
  induction names with
  | nil => intro d; simp [sweep]
  | cons n rest ih =>
    intro d
    rw [sweep]
    by_cases hc : (isImage n && !(touched.contains (fullPath n))) = true
    · rw [if_pos hc]
      rcases unlink_cases d n with hu | hu
      · rw [hu]
      · rw [hu]; exact ih _
    · rw [if_neg hc]; exact ih d

theorem orphaned_iff (touched : List String) (name : String) :
    orphaned touched name = true ↔ (isImage name = true ∧ fullPath name ∉ touched) := by
  unfold orphaned
  simp [List.elem_iff]

/-- C4: after the orphan collector completes without error on an existing
output directory, every direct file whose extension marks it as an image
and whose full path is not in the touched set has been deleted, every
touched image still exists, files without an image extension are never
deleted, and the whole operation is a no-op when the output directory
does not exist. -/
theorem cleanupOrphanedImages_spec (touched : List String) (d d' : OutDir)
    (h : cleanupOrphanedImages touched (some d) = (some d', none)) :
    (∀ f ∈ d.files, isImage f.name = true → fullPath f.name ∉ touched → f ∉ d'.files) ∧
    (∀ f ∈ d.files, isImage f.name = true → fullPath f.name ∈ touched → f ∈ d'.files) ∧
    (∀ f ∈ d.files, isImage f.name = false → f ∈ d'.files) ∧
    cleanupOrphanedImages touched none = (none, none) := by
  simp only [cleanupOrphanedImages, Prod.mk.injEq, Option.some.injEq] at h
  obtain ⟨h1, h2⟩ := h
  refine ⟨?_, ?_, ?_, rfl⟩
  · intro f hf himg hnt hfd'
    have hmem : f.name ∈ listing d :=
      List.mem_append_left _ (List.mem_map.2 ⟨f, hf, rfl⟩)
    have horph : orphaned touched f.name = true := (orphaned_iff touched f.name).2 ⟨himg, hnt⟩
    have := sweep_error_none touched (listing d) d f.name h2 hmem horph f (h1 ▸ hfd')
    exact this rfl
  · intro f hf himg ht
    have hno : orphaned touched f.name = false := by
      rw [Bool.eq_false_iff]
      intro hor
      exact ((orphaned_iff touched f.name).1 hor).2 ht
    exact h1 ▸ sweep_preserves touched (listing d) d f hf hno
  · intro f hf himg
    have hno : orphaned touched f.name = false := by
      rw [Bool.eq_false_iff]
      intro hor
      rw [((orphaned_iff touched f.name).1 hor).1] at himg
      exact Bool.noConfusion himg
    exact h1 ▸ sweep_preserves touched (listing d) d f hf hno

/-- Concrete output directory used to instantiate C4. -/
def dW : OutDir := ⟨[⟨"keep.png", true⟩, ⟨"orphan.png", true⟩, ⟨"notes.txt", true⟩], []⟩

/-- The state C4's instantiation leaves behind. -/
def dW' : OutDir := ⟨[⟨"keep.png", true⟩, ⟨"notes.txt", true⟩], []⟩

theorem cleanupOrphanedImages_spec_witness :
    (∀ f ∈ dW.files, isImage f.name = true → fullPath f.name ∉ ["public/keep.png"] → f ∉ dW'.files) ∧
    (∀ f ∈ dW.files, isImage f.name = true → fullPath f.name ∈ ["public/keep.png"] → f ∈ dW'.files) ∧
    (∀ f ∈ dW.files, isImage f.name = false → f ∈ dW'.files) ∧
    cleanupOrphanedImages ["public/keep.png"] none = (none, none) :=
  cleanupOrphanedImages_spec ["public/keep.png"] dW dW' (by decide)

/-- Concrete output directory refuting C5: `locked.png` is an orphaned
image the OS refuses to delete, `stale.png` a later orphaned image. -/
def dC5 : OutDir := ⟨[⟨"locked.png", false⟩, ⟨"stale.png", true⟩], []⟩

/-- C5 is false as stated: the source wraps `fs.unlinkSync` in no
try/catch, so when deleting `locked.png` fails, the sweep aborts with the
error — the remaining orphaned image `stale.png` is never examined and
survives, and the error propagates out of `cleanupOrphanedImages`
(failing the pass) instead of being skipped. -/
theorem cleanup_failure_aborts_counterexample :
    cleanupOrphanedImages [] (some dC5) = (some dC5, some "public/locked.png") ∧
    orphaned [] "stale.png" = true ∧
    (⟨"stale.png", true⟩ : FileEntry) ∈ dC5.files := by decide

/-- C5 (amended): a failure to delete one file aborts the sweep — the
error propagates out of the collector, files listed after the failing
one are not examined, and only the deletions made before the failure are
kept (best effort up to the first error, then abort). -/
theorem cleanup_aborts_on_failed_delete (touched : List String) (d d₁ : OutDir)
    (names₁ names₂ : List String) (n : String)
    (hlist : listing d = names₁ ++ n :: names₂)
    (hpre : sweep touched names₁ d = (d₁, none))
    (horph : orphaned touched n = true)
    (hfail : unlink d₁ n = (d₁, some (fullPath n))) :
    cleanupOrphanedImages touched (some d) = (some d₁, some (fullPath n)) := by
  show (some (sweep touched (listing d) d).1, (sweep touched (listing d) d).2) =
    (some d₁, some (fullPath n))
  rw [hlist, sweep_append, hpre]
  show (some (sweep touched (n :: names₂) d₁).1, (sweep touched (n :: names₂) d₁).2) =
    (some d₁, some (fullPath n))
  rw [sweep]
  unfold orphaned at horph
  rw [if_pos horph, hfail]

theorem cleanup_aborts_on_failed_delete_witness :
    cleanupOrphanedImages [] (some dC5) = (some dC5, some (fullPath "locked.png")) :=
  cleanup_aborts_on_failed_delete [] dC5 dC5 [] ["stale.png"] "locked.png"
    (by decide) (by decide) (by decide) (by decide)

/-- C10: `fs.readdirSync(imageDir)` is non-recursive, so the collector
only ever unlinks entries directly in the output root — every
subdirectory, together with every image file inside it, is left exactly
as it was, whether or not those paths are in the touched set. -/
theorem cleanup_preserves_subdirectories (touched : List String) (d : OutDir) :
    ∃ d', (cleanupOrphanedImages touched (some d)).1 = some d' ∧
      d'.subdirs = d.subdirs ∧ ∀ s ∈ d.subdirs, s ∈ d'.subdirs := by
  refine ⟨(sweep touched (listing d) d).1, rfl, sweep_subdirs touched (listing d) d, ?_⟩
  intro s hs
  rw [sweep_subdirs touched (listing d) d]
  exact hs

end Cleanup

/-! ## Navigation builder (`buildNavTree`)

The source directory is a tree of named entries; `.md` files produce
leaf nodes, subdirectories recurse.  JavaScript's `Array.prototype.sort`
with the two comparators of the source is modelled by
`List.insertionSort` over the order each comparator induces
(`cmp a b <= 0`); file names within one directory are distinct in a real
filesystem, so any sort agreeing with the comparator yields the same
list.  Default-locale `localeCompare` is modelled as code-point
lexicographic order on strings. -/

namespace Nav

/-- One entry of the source tree: a file or a subdirectory with its own
entries. -/
inductive SrcEntry where
  | file (name : String)
  | dir (name : String) (entries : List SrcEntry)

/-- The `name` of a directory entry (`dirent.name`). -/
def SrcEntry.name : SrcEntry → String
  | .file n => n
  | .dir n _ => n

/-- The `NavItem` interface of the source: display name, web path,
children (empty for files). -/
inductive NavItem where
  | mk (name : String) (path : String) (children : List NavItem)

def NavItem.name : NavItem → String
  | .mk n _ _ => n

def NavItem.path : NavItem → String
  | .mk _ p _ => p

def NavItem.children : NavItem → List NavItem
  | .mk _ _ c => c

/-- JavaScript's `name.endsWith(suf)`, written over character lists so it evaluates
by computation. -/
def strEndsWith (s suf : String) : Bool :=
  List.isSuffixOf suf.toList s.toList

/-- Drop the final `.md` (three characters) of a name. -/
def stripMd (name : String) : String :=
  String.mk (name.toList.take (name.toList.length - 3))

/-- The swap `file.name.replace(/\.md$/, ".html")`. -/
def mdToHtml (name : String) : String :=
  if strEndsWith name ".md" then stripMd name ++ ".html" else name

/-- Node's `path.basename(name, ".md")` on a bare file name. -/
def basenameMd (name : String) : String :=
  if strEndsWith name ".md" then stripMd name else name

/-- JavaScript `\w`: ASCII letters, digits and underscore. -/
def isWordChar (c : Char) : Bool :=
  ('a' ≤ c && c ≤ 'z') || ('A' ≤ c && c ≤ 'Z') || ('0' ≤ c && c ≤ '9') || c == '_'

/-- The capitalization `.replace(/\b\w/g, l => l.toUpperCase())`: upper-case every word
character that starts a word (preceded by start or a non-word char). -/
def capWordsAux : Option Char → List Char → List Char
  | _, [] => []
  | prev, c :: cs =>
    let boundary := match prev with
      | none => true
      | some p => !(isWordChar p)
    let c' := if isWordChar c && boundary then c.toUpper else c
    c' :: capWordsAux (some c) cs

def capitalizeWords (s : String) : String :=
  String.mk (capWordsAux none s.toList)

/-- The source's `prettifyName`: strip `.md`, map `index` to `Home`,
else hyphens to spaces and capitalize each word. -/
def prettifyName (name : String) : String :=
  let baseName := basenameMd name
  if baseName = "index" then "Home"
  else capitalizeWords (String.mk (baseName.toList.map (fun c => if c = '-' then ' ' else c)))

/-- The file filter `e.isFile() && e.name.endsWith(".md")`. -/
def isMdFile : SrcEntry → Bool
  | .file n => strEndsWith n ".md"
  | .dir _ _ => false

/-- The directory filter `e.isDirectory()`. -/
def isDir : SrcEntry → Bool
  | .file _ => false
  | .dir _ _ => true

/-- The `files` partition of `buildNavTree`. -/
def filesOf (entries : List SrcEntry) : List SrcEntry := entries.filter isMdFile

/-- The `dirs` partition of `buildNavTree`. -/
def dirsOf (entries : List SrcEntry) : List SrcEntry := entries.filter isDir

/-- The order induced by the file comparator of `buildNavTree`:
`a` before `b` when `a` is `index.md`, never when only `b` is, else by
`localeCompare` (modelled as code-point order). -/
def fileCmpLe (a b : SrcEntry) : Prop :=
  if a.name = "index.md" then True
  else if b.name = "index.md" then False
  else a.name ≤ b.name

instance : DecidableRel fileCmpLe := fun a b => by
  unfold fileCmpLe
  infer_instance

instance : IsTotal SrcEntry fileCmpLe where
  total := by
    intro a b
    by_cases ha : a.name = "index.md" <;> by_cases hb : b.name = "index.md" <;>
      simp [fileCmpLe, ha, hb]
    exact le_total _ _

instance : IsTrans SrcEntry fileCmpLe where
  trans := by
    intro a b c hab hbc
    by_cases ha : a.name = "index.md"
    · simp [fileCmpLe, ha]
    · by_cases hb : b.name = "index.md"
      · simp [fileCmpLe, ha, hb] at hab
      · by_cases hc : c.name = "index.md"
        · simp [fileCmpLe, hb, hc] at hbc
        · simp [fileCmpLe, ha, hb, hc] at hab hbc ⊢
          exact le_trans hab hbc

/-- The order induced by the directory comparator:
`a.name.localeCompare(b.name) <= 0`. -/
def dirLe (a b : SrcEntry) : Prop := a.name ≤ b.name

instance : DecidableRel dirLe := fun a b => by
  unfold dirLe
  infer_instance

instance : IsTotal SrcEntry dirLe where
  total := by intro a b; exact le_total a.name b.name

instance : IsTrans SrcEntry dirLe where
  trans := by intro a b c hab hbc; exact le_trans hab hbc

/-- A file's navigation node: prettified display name and the web path
with `.md` swapped for `.html`. -/
def fileNode (wp : String) (f : SrcEntry) : NavItem :=
  NavItem.mk (prettifyName f.name) (wp ++ mdToHtml f.name) []

/-- Node's `path.basename` of a web path: the part after the last slash. -/
def webBasename (p : String) : String :=
  String.mk ((p.toList.reverse.takeWhile (fun c => c ≠ '/')).reverse)

/-- The path given to a subdirectory's node:
`children.find(child => path.basename(child.path) === "index.html")`,
falling back to the placeholder `#`. -/
def dirIndexPath (children : List NavItem) : String :=
  match children.find? (fun c => webBasename c.path == "index.html") with
  | some c => c.path
  | none => "#"

/-- A small helper: `1 + sizeOf` facts used for termination. -/
theorem sizeOf_filter_le (p : SrcEntry → Bool) :
    ∀ (l : List SrcEntry), sizeOf (l.filter p) ≤ sizeOf l := by
  intro l
  induction l with
  | nil => simp
  | cons a l ih =>
    by_cases h : p a
    · rw [List.filter_cons_of_pos h]
      simp only [List.cons.sizeOf_spec]
      omega
    · rw [List.filter_cons_of_neg h]
      simp only [List.cons.sizeOf_spec]
      have : 0 ≤ sizeOf a := Nat.zero_le _
      omega

mutual

/-- The source's `buildNavTree`: partition the entries, sort each part
with its comparator, emit the file nodes, then the subdirectory nodes. -/
def buildNavTree (entries : List SrcEntry) (wp : String) : List NavItem :=
  (List.insertionSort fileCmpLe (filesOf entries)).map (fileNode wp)
    ++ buildDirNodes (List.insertionSort dirLe (dirsOf entries)) wp
termination_by (sizeOf entries, 1)
decreasing_by
  rw [Prod.lex_def]
  have h1 : sizeOf (List.insertionSort dirLe (dirsOf entries)) = sizeOf (dirsOf entries) :=
    List.Perm.sizeOf_eq_sizeOf (List.perm_insertionSort dirLe (dirsOf entries))
  have h2 : sizeOf (dirsOf entries) ≤ sizeOf entries := sizeOf_filter_le isDir entries
  rcases Nat.lt_or_ge (sizeOf (List.insertionSort dirLe (dirsOf entries))) (sizeOf entries) with h | h
  · left; exact h
  · right
    constructor
    · omega
    · omega

/-- The `for (const subDir of dirs)` loop of `buildNavTree`: recurse into
each subdirectory, emit a node only when the recursive child list is
non-empty, with the index-child path or the `#` placeholder. -/
def buildDirNodes : List SrcEntry → String → List NavItem
  | [], _ => []
  | .file _ :: rest, wp => buildDirNodes rest wp
  | .dir dn des :: rest, wp =>
    let children := buildNavTree des (wp ++ dn ++ "/")
    if children.isEmpty then buildDirNodes rest wp
    else NavItem.mk (prettifyName dn) (dirIndexPath children) children :: buildDirNodes rest wp
termination_by l _ => (sizeOf l, 0)

end

theorem NavItem.children_mk (n p : String) (c : List NavItem) :
    (NavItem.mk n p c).children = c := rfl

theorem NavItem.path_mk (n p : String) (c : List NavItem) :
    (NavItem.mk n p c).path = p := rfl

/-- The subdirectory nodes are exactly the nodes of those subdirectories
whose recursively built child list is non-empty, carrying the
`dirIndexPath` of their children. -/
theorem mem_buildDirNodes (wp : String) : ∀ (ds : List SrcEntry) (item : NavItem),
    item ∈ buildDirNodes ds wp ↔
      ∃ dn des, SrcEntry.dir dn des ∈ ds ∧
        buildNavTree des (wp ++ dn ++ "/") ≠ [] ∧
        item = NavItem.mk (prettifyName dn)
          (dirIndexPath (buildNavTree des (wp ++ dn ++ "/")))
          (buildNavTree des (wp ++ dn ++ "/")) := by
  intro ds
  induction ds with
  | nil => intro item; simp [buildDirNodes]
  | cons e rest ih =>
    intro item
    match e with
    | .file n =>
      rw [buildDirNodes]
      simp only [List.mem_cons]
      rw [ih]
      constructor
      · rintro ⟨dn, des, hmem, hne, heq⟩
        exact ⟨dn, des, Or.inr hmem, hne, heq⟩
      · rintro ⟨dn, des, hmem, hne, heq⟩
        rcases hmem with hmem | hmem
        · exact absurd hmem (by simp)
        · exact ⟨dn, des, hmem, hne, heq⟩
    | .dir dn des =>
      rw [buildDirNodes]
      by_cases hemp : (buildNavTree des (wp ++ dn ++ "/")).isEmpty = true
      · rw [if_pos hemp]
        have hnil : buildNavTree des (wp ++ dn ++ "/") = [] := by
          simpa [List.isEmpty_iff] using hemp
        rw [ih]
        constructor
        · rintro ⟨dn', des', hmem, hne, heq⟩
          exact ⟨dn', des', List.mem_cons_of_mem _ hmem, hne, heq⟩
        · rintro ⟨dn', des', hmem, hne, heq⟩
          rcases List.mem_cons.1 hmem with hmem' | hmem'
          · obtain ⟨h1, h2⟩ : dn' = dn ∧ des' = des := by
              constructor <;> injection hmem'.symm <;> simp_all
            subst h1; subst h2
            exact absurd hnil hne
          · exact ⟨dn', des', hmem', hne, heq⟩
      · rw [if_neg hemp]
        have hne0 : buildNavTree des (wp ++ dn ++ "/") ≠ [] := by
          simpa [List.isEmpty_iff] using hemp
        rw [List.mem_cons, ih]
        constructor
        · rintro (heq | ⟨dn', des', hmem, hne, heq⟩)
          · exact ⟨dn, des, List.mem_cons_self _ _, hne0, heq⟩
          · exact ⟨dn', des', List.mem_cons_of_mem _ hmem, hne, heq⟩
        · rintro ⟨dn', des', hmem, hne, heq⟩
          rcases List.mem_cons.1 hmem with hmem' | hmem'
          · obtain ⟨h1, h2⟩ : dn' = dn ∧ des' = des := by
              constructor <;> injection hmem'.symm <;> simp_all
            subst h1; subst h2
            exact Or.inl heq
          · exact Or.inr ⟨dn', des', hmem', hne, heq⟩

/-- C8: for every directory, the navigation list is the document nodes —
led by `index.md` whenever present, the rest in lexicographic filename
order — followed by the subdirectory nodes in lexicographic name order. -/
theorem buildNavTree_ordering (entries : List SrcEntry) (wp : String) :
    ∃ fs ds : List SrcEntry,
      fs.Perm (filesOf entries) ∧
      ds.Perm (dirsOf entries) ∧
      buildNavTree entries wp = fs.map (fileNode wp) ++ buildDirNodes ds wp ∧
      ("index.md" ∈ (filesOf entries).map SrcEntry.name →
        fs.head?.map SrcEntry.name = some "index.md") ∧
      List.Sorted (fun a b : SrcEntry => a.name ≤ b.name)
        (fs.filter (fun f => f.name ≠ "index.md")) ∧
      List.Sorted (fun a b : SrcEntry => a.name ≤ b.name) ds := by
  refine ⟨List.insertionSort fileCmpLe (filesOf entries),
    List.insertionSort dirLe (dirsOf entries),
    List.perm_insertionSort _ _, List.perm_insertionSort _ _, by rw [buildNavTree], ?_, ?_, ?_⟩
  · intro hidx
    obtain ⟨f, hf, hfn⟩ := List.mem_map.1 hidx
    have hfs : f ∈ List.insertionSort fileCmpLe (filesOf entries) :=
      (List.perm_insertionSort fileCmpLe (filesOf entries)).mem_iff.2 hf
    have hsort := List.sorted_insertionSort fileCmpLe (filesOf entries)
    cases hl : List.insertionSort fileCmpLe (filesOf entries) with
    | nil => rw [hl] at hfs; exact absurd hfs (List.not_mem_nil f)
    | cons a rest =>
      rw [hl] at hfs hsort
      show some a.name = some "index.md"
      rcases List.mem_cons.1 hfs with heq | hrest
      · rw [← heq, hfn]
      · have hle : fileCmpLe a f := (List.sorted_cons.1 hsort).1 f hrest
        by_cases ha : a.name = "index.md"
        · rw [ha]
        · unfold fileCmpLe at hle
          rw [if_neg ha, if_pos hfn] at hle
          exact hle.elim
  · have hsort := List.sorted_insertionSort fileCmpLe (filesOf entries)
    have hp := List.Pairwise.sublist
      (@List.filter_sublist SrcEntry (fun f => decide (f.name ≠ "index.md"))
        (List.insertionSort fileCmpLe (filesOf entries))) hsort
    refine List.Pairwise.imp_of_mem ?_ hp
    intro a b hma hmb hab
    have ha : a.name ≠ "index.md" := by
      have := (List.mem_filter.1 hma).2
      simpa using this
    have hb : b.name ≠ "index.md" := by
      have := (List.mem_filter.1 hmb).2
      simpa using this
    unfold fileCmpLe at hab
    rw [if_neg ha, if_neg hb] at hab
    exact hab
  · exact List.sorted_insertionSort dirLe (dirsOf entries)

theorem buildNavTree_ordering_witness :
    ∃ fs ds : List SrcEntry,
      fs.Perm (filesOf [SrcEntry.file "setup.md", SrcEntry.file "index.md",
        SrcEntry.dir "guide" [SrcEntry.file "intro.md"]]) ∧
      ds.Perm (dirsOf [SrcEntry.file "setup.md", SrcEntry.file "index.md",
        SrcEntry.dir "guide" [SrcEntry.file "intro.md"]]) ∧
      buildNavTree [SrcEntry.file "setup.md", SrcEntry.file "index.md",
        SrcEntry.dir "guide" [SrcEntry.file "intro.md"]] "/" =
        fs.map (fileNode "/") ++ buildDirNodes ds "/" ∧
      ("index.md" ∈ (filesOf [SrcEntry.file "setup.md", SrcEntry.file "index.md",
        SrcEntry.dir "guide" [SrcEntry.file "intro.md"]]).map SrcEntry.name →
        fs.head?.map SrcEntry.name = some "index.md") ∧
      List.Sorted (fun a b : SrcEntry => a.name ≤ b.name)
        (fs.filter (fun f => f.name ≠ "index.md")) ∧
      List.Sorted (fun a b : SrcEntry => a.name ≤ b.name) ds :=
  buildNavTree_ordering [SrcEntry.file "setup.md", SrcEntry.file "index.md",
    SrcEntry.dir "guide" [SrcEntry.file "intro.md"]] "/"

/-- The placeholder case of the subdirectory path rule: no immediate
child's web-path basename is `index.html`. -/
theorem dirIndexPath_placeholder (children : List NavItem)
    (h : ∀ c ∈ children, webBasename c.path ≠ "index.html") :
    dirIndexPath children = "#" := by
  unfold dirIndexPath
  have : children.find? (fun c => webBasename c.path == "index.html") = none := by
    rw [List.find?_eq_none]
    intro c hc
    simpa using h c hc
  rw [this]

/-- The positive case of the subdirectory path rule: the first child
whose web-path basename is `index.html` supplies the path. -/
theorem dirIndexPath_first : ∀ (l₁ : List NavItem) (c : NavItem) (l₂ : List NavItem),
    webBasename c.path = "index.html" →
    (∀ c' ∈ l₁, webBasename c'.path ≠ "index.html") →
    dirIndexPath (l₁ ++ c :: l₂) = c.path := by
  intro l₁
  induction l₁ with
  | nil =>
    intro c l₂ hc _
    unfold dirIndexPath
    rw [List.nil_append, List.find?_cons_of_pos _ (by simpa using hc)]
  | cons a r ih =>
    intro c l₂ hc h₁
    unfold dirIndexPath
    rw [List.cons_append, List.find?_cons_of_neg _ (by simpa using h₁ a (List.mem_cons_self a r))]
    have := ih c l₂ hc (fun c' hc' => h₁ c' (List.mem_cons_of_mem a hc'))
    unfold dirIndexPath at this
    exact this

/-- C9: the navigation list splits into file nodes (no children) and
subdirectory nodes; a subdirectory contributes a node iff its
recursively built child list is non-empty, and that node's path is the
`dirIndexPath` of its children — the path of the first immediate child
whose web-path basename is `index.html`, or the placeholder `#`. -/
theorem buildNavTree_subdir_nodes (entries : List SrcEntry) (wp : String) :
    ∃ fileNodes dirNodes : List NavItem,
      buildNavTree entries wp = fileNodes ++ dirNodes ∧
      (∀ fn ∈ fileNodes, fn.children = []) ∧
      (∀ item, item ∈ dirNodes ↔
        ∃ dn des, SrcEntry.dir dn des ∈ entries ∧
          buildNavTree des (wp ++ dn ++ "/") ≠ [] ∧
          item = NavItem.mk (prettifyName dn)
            (dirIndexPath (buildNavTree des (wp ++ dn ++ "/")))
            (buildNavTree des (wp ++ dn ++ "/"))) ∧
      (∀ children : List NavItem,
        (∀ c ∈ children, webBasename c.path ≠ "index.html") →
        dirIndexPath children = "#") ∧
      (∀ (l₁ : List NavItem) (c : NavItem) (l₂ : List NavItem),
        webBasename c.path = "index.html" →
        (∀ c' ∈ l₁, webBasename c'.path ≠ "index.html") →
        dirIndexPath (l₁ ++ c :: l₂) = c.path) := by
  refine ⟨(List.insertionSort fileCmpLe (filesOf entries)).map (fileNode wp),
    buildDirNodes (List.insertionSort dirLe (dirsOf entries)) wp,
    by rw [buildNavTree], ?_, ?_, dirIndexPath_placeholder, dirIndexPath_first⟩
  · intro fn hfn
    obtain ⟨f, _, heq⟩ := List.mem_map.1 hfn
    rw [← heq]
    rfl
  · intro item
    rw [mem_buildDirNodes]
    constructor
    · rintro ⟨dn, des, hmem, hne, heq⟩
      refine ⟨dn, des, ?_, hne, heq⟩
      have h1 : SrcEntry.dir dn des ∈ dirsOf entries :=
        (List.perm_insertionSort dirLe (dirsOf entries)).mem_iff.1 hmem
      exact List.mem_of_mem_filter h1
    · rintro ⟨dn, des, hmem, hne, heq⟩
      refine ⟨dn, des, ?_, hne, heq⟩
      apply (List.perm_insertionSort dirLe (dirsOf entries)).mem_iff.2
      exact List.mem_filter.2 ⟨hmem, rfl⟩

theorem buildNavTree_subdir_nodes_witness :
    ∃ fileNodes dirNodes : List NavItem,
      buildNavTree [SrcEntry.dir "guide" [SrcEntry.file "index.md"]] "/" =
        fileNodes ++ dirNodes ∧
      (∀ fn ∈ fileNodes, fn.children = []) ∧
      (∀ item, item ∈ dirNodes ↔
        ∃ dn des, SrcEntry.dir dn des ∈ [SrcEntry.dir "guide" [SrcEntry.file "index.md"]] ∧
          buildNavTree des ("/" ++ dn ++ "/") ≠ [] ∧
          item = NavItem.mk (prettifyName dn)
            (dirIndexPath (buildNavTree des ("/" ++ dn ++ "/")))
            (buildNavTree des ("/" ++ dn ++ "/"))) ∧
      (∀ children : List NavItem,
        (∀ c ∈ children, webBasename c.path ≠ "index.html") →
        dirIndexPath children = "#") ∧
      (∀ (l₁ : List NavItem) (c : NavItem) (l₂ : List NavItem),
        webBasename c.path = "index.html" →
        (∀ c' ∈ l₁, webBasename c'.path ≠ "index.html") →
        dirIndexPath (l₁ ++ c :: l₂) = c.path) :=
  buildNavTree_subdir_nodes [SrcEntry.dir "guide" [SrcEntry.file "index.md"]] "/"

end Nav

/-! ## Image externalizer (`processMarkdownImages`)

A document is modelled as the list of fragments the regex scan
`!\[(.*?)\]\((https?:\/\/.*?)\)` produces: plain text between matches
and one `image` segment per match (alt text and remote url); rewriting
a match replaces its segment.  The ambient effects are explicit: the
files on disk, the touched-image set `allUsedImages`, and a counter of
network fetch attempts.  The library capabilities are parameters:
`filenameOf` models `path.basename(new URL(url).pathname)`, `fetch`
models a fetch that either yields the body bytes or fails (network
error or `!response.ok`), `compress` models `imagemin.buffer`. -/

namespace Images

/-- One scanned fragment of a document's markdown. -/
inductive Segment where
  | text (s : String)
  | image (alt : String) (url : String)
deriving DecidableEq, Repr

/-- The externalization state: files on disk (path to bytes), the
touched set `allUsedImages`, and how many fetches were attempted. -/
structure ImgState where
  fs : List (String × List Nat)
  touched : List String
  fetches : Nat
deriving DecidableEq, Repr

/-- The local cache path of a remote image:
`path.join(imageDir, path.basename(new URL(url).pathname))`. -/
def cachePath (filenameOf : String → String) (url : String) : String :=
  Cleanup.fullPath (filenameOf url)

/-- The rewritten reference target: the preview-server URL in live
mode, a root-relative path otherwise. -/
def webPathOf (withLiveReload : Bool) (filename : String) : String :=
  if withLiveReload then "http://localhost:3000/" ++ filename else "/" ++ filename

/-- One iteration of the match loop of `processMarkdownImages`: register
the cache path in the touched set (before the existence check, as the
source does), then — only when no file exists at that path — fetch,
compress and write; a failed fetch is caught, leaving the original
segment unmodified.  Returns the new state and the (possibly rewritten)
segment. -/
def processImage (filenameOf : String → String) (fetch : String → Option (List Nat))
    (compress : List Nat → List Nat) (withLiveReload : Bool)
    (st : ImgState) (alt url : String) : ImgState × Segment :=
  let filename := filenameOf url
  let localFilePath := cachePath filenameOf url
  let st₁ : ImgState := { st with touched := st.touched.insert localFilePath }
  if (st₁.fs.lookup localFilePath).isSome then
    (st₁, Segment.image alt (webPathOf withLiveReload filename))
  else
    match fetch url with
    | none => ({ st₁ with fetches := st₁.fetches + 1 }, Segment.image alt url)
    | some bytes =>
      ({ st₁ with
          fs := (localFilePath, compress bytes) :: st₁.fs,
          fetches := st₁.fetches + 1 },
        Segment.image alt (webPathOf withLiveReload filename))

/-- The source's `processMarkdownImages`: process the matches in document order,
threading the state; text between matches passes through. -/
def processMarkdownImages (filenameOf : String → String)
    (fetch : String → Option (List Nat)) (compress : List Nat → List Nat)
    (withLiveReload : Bool) : List Segment → ImgState → ImgState × List Segment
  | [], st => (st, [])
  | Segment.text s :: rest, st =>
    let r := processMarkdownImages filenameOf fetch compress withLiveReload rest st
    (r.1, Segment.text s :: r.2)
  | Segment.image alt url :: rest, st =>
    let p := processImage filenameOf fetch compress withLiveReload st alt url
    let r := processMarkdownImages filenameOf fetch compress withLiveReload rest p.1
    (r.1, p.2 :: r.2)

/-- Every image reference of the document already has a cached file. -/
def imagesCached (filenameOf : String → String) (fs : List (String × List Nat)) :
    List Segment → Bool
  | [] => true
  | Segment.text _ :: rest => imagesCached filenameOf fs rest
  | Segment.image _ url :: rest =>
    (fs.lookup (cachePath filenameOf url)).isSome && imagesCached filenameOf fs rest

/-- Every image reference of the document fetches successfully. -/
def fetchesOk (fetch : String → Option (List Nat)) : List Segment → Bool
  | [] => true
  | Segment.text _ :: rest => fetchesOk fetch rest
  | Segment.image _ url :: rest => (fetch url).isSome && fetchesOk fetch rest

variable (filenameOf : String → String) (fetch : String → Option (List Nat))
variable (compress : List Nat → List Nat) (wl : Bool)

theorem processImage_eq_cached (st : ImgState) (alt url : String)
    (h : (st.fs.lookup (cachePath filenameOf url)).isSome = true) :
    processImage filenameOf fetch compress wl st alt url =
      (⟨st.fs, st.touched.insert (cachePath filenameOf url), st.fetches⟩,
        Segment.image alt (webPathOf wl (filenameOf url))) := by
  simp only [processImage]
  rw [if_pos h]

theorem processImage_eq_fail (st : ImgState) (alt url : String)
    (h : (st.fs.lookup (cachePath filenameOf url)).isSome = false)
    (hf : fetch url = none) :
    processImage filenameOf fetch compress wl st alt url =
      (⟨st.fs, st.touched.insert (cachePath filenameOf url), st.fetches + 1⟩,
        Segment.image alt url) := by
  simp only [processImage]
  rw [if_neg (by simp [h]), hf]

theorem processImage_eq_fetch (st : ImgState) (alt url : String) (bytes : List Nat)
    (h : (st.fs.lookup (cachePath filenameOf url)).isSome = false)
    (hf : fetch url = some bytes) :
    processImage filenameOf fetch compress wl st alt url =
      (⟨(cachePath filenameOf url, compress bytes) :: st.fs,
          st.touched.insert (cachePath filenameOf url), st.fetches + 1⟩,
        Segment.image alt (webPathOf wl (filenameOf url))) := by
  simp only [processImage]
  rw [if_neg (by simp [h]), hf]

theorem lookup_cons_isSome (p q : String) (v : List Nat) (fs : List (String × List Nat))
    (h : (fs.lookup p).isSome = true) : (((q, v) :: fs).lookup p).isSome = true := by
  by_cases hpq : (p == q) = true <;> simp [List.lookup, hpq, h]

/-- The on-disk map only grows during externalization. -/
theorem process_fs_mono : ∀ (doc : List Segment) (st : ImgState) (p : String),
    (st.fs.lookup p).isSome = true →
    (((processMarkdownImages filenameOf fetch compress wl doc st).1.fs).lookup p).isSome = true := by
  intro doc
  induction doc with
  | nil => intro st p h; exact h
  | cons seg rest ih =>
    intro st p h
    match seg with
    | Segment.text s => exact ih st p h
    | Segment.image alt url =>
      rw [processMarkdownImages]
      by_cases hc : (st.fs.lookup (cachePath filenameOf url)).isSome = true
      · rw [processImage_eq_cached filenameOf fetch compress wl st alt url hc]
        exact ih _ p h
      · rw [Bool.not_eq_true] at hc
        cases hf : fetch url with
        | none =>
          rw [processImage_eq_fail filenameOf fetch compress wl st alt url hc hf]
          exact ih _ p h
        | some bytes =>
          rw [processImage_eq_fetch filenameOf fetch compress wl st alt url bytes hc hf]
          exact ih _ p (lookup_cons_isSome p _ _ _ h)

/-- The touched set only grows during externalization. -/
theorem process_touched_mono : ∀ (doc : List Segment) (st : ImgState) (p : String),
    p ∈ st.touched →
    p ∈ (processMarkdownImages filenameOf fetch compress wl doc st).1.touched := by
  intro doc
  induction doc with
  | nil => intro st p h; exact h
  | cons seg rest ih =>
    intro st p h
    match seg with
    | Segment.text s => exact ih st p h
    | Segment.image alt url =>
      rw [processMarkdownImages]
      by_cases hc : (st.fs.lookup (cachePath filenameOf url)).isSome = true
      · rw [processImage_eq_cached filenameOf fetch compress wl st alt url hc]
        exact ih _ p (List.mem_insert_iff.2 (Or.inr h))
      · rw [Bool.not_eq_true] at hc
        cases hf : fetch url with
        | none =>
          rw [processImage_eq_fail filenameOf fetch compress wl st alt url hc hf]
          exact ih _ p (List.mem_insert_iff.2 (Or.inr h))
        | some bytes =>
          rw [processImage_eq_fetch filenameOf fetch compress wl st alt url bytes hc hf]
          exact ih _ p (List.mem_insert_iff.2 (Or.inr h))

/-- Externalizing a fully cached document: the disk and the fetch
counter are untouched, and every reference's cache path lands in the
touched set. -/
theorem process_cached : ∀ (doc : List Segment) (st : ImgState),
    imagesCached filenameOf st.fs doc = true →
    (processMarkdownImages filenameOf fetch compress wl doc st).1.fs = st.fs ∧
    (processMarkdownImages filenameOf fetch compress wl doc st).1.fetches = st.fetches ∧
    ∀ alt url, Segment.image alt url ∈ doc →
      cachePath filenameOf url ∈
        (processMarkdownImages filenameOf fetch compress wl doc st).1.touched := by
  intro doc
  induction doc with
  | nil =>
    intro st _
    exact ⟨rfl, rfl, fun alt url h => absurd h (List.not_mem_nil _)⟩
  | cons seg rest ih =>
    intro st hc
    match seg with
    | Segment.text s =>
      rw [imagesCached] at hc
      obtain ⟨h1, h2, h3⟩ := ih st hc
      rw [processMarkdownImages]
      refine ⟨h1, h2, ?_⟩
      intro alt url hmem
      rcases List.mem_cons.1 hmem with heq | hmem'
      · exact absurd heq (by simp)
      · exact h3 alt url hmem'
    | Segment.image alt0 url0 =>
      rw [imagesCached, Bool.and_eq_true] at hc
      obtain ⟨hc0, hcrest⟩ := hc
      rw [processMarkdownImages,
        processImage_eq_cached filenameOf fetch compress wl st alt0 url0 hc0]
      obtain ⟨h1, h2, h3⟩ := ih ⟨st.fs, st.touched.insert (cachePath filenameOf url0), st.fetches⟩ hcrest
      refine ⟨h1, h2, ?_⟩
      intro alt url hmem
      rcases List.mem_cons.1 hmem with heq | hmem'
      · obtain ⟨ha, hu⟩ : alt = alt0 ∧ url = url0 := by
          injection heq with h1 h2
          exact ⟨h1, h2⟩
        subst hu
        exact process_touched_mono filenameOf fetch compress wl rest _ _
          (List.mem_insert_iff.2 (Or.inl rfl))
      · exact h3 alt url hmem'

/-- After a run in which every fetch succeeds, every referenced image is
cached on disk. -/
theorem process_fetches_cache : ∀ (doc : List Segment) (st : ImgState),
    fetchesOk fetch doc = true →
    ∀ alt url, Segment.image alt url ∈ doc →
      (((processMarkdownImages filenameOf fetch compress wl doc st).1.fs).lookup
        (cachePath filenameOf url)).isSome = true := by
  intro doc
  induction doc with
  | nil => intro st _ alt url h; exact absurd h (List.not_mem_nil _)
  | cons seg rest ih =>
    intro st hok alt url hmem
    match seg with
    | Segment.text s =>
      rw [fetchesOk] at hok
      rcases List.mem_cons.1 hmem with heq | hmem'
      · exact absurd heq (by simp)
      · exact ih st hok alt url hmem'
    | Segment.image alt0 url0 =>
      rw [fetchesOk, Bool.and_eq_true] at hok
      obtain ⟨hok0, hokrest⟩ := hok
      rw [processMarkdownImages]
      by_cases hc : (st.fs.lookup (cachePath filenameOf url0)).isSome = true
      · rw [processImage_eq_cached filenameOf fetch compress wl st alt0 url0 hc]
        rcases List.mem_cons.1 hmem with heq | hmem'
        · obtain ⟨ha, hu⟩ : alt = alt0 ∧ url = url0 := by
            injection heq with h1 h2
            exact ⟨h1, h2⟩
          subst hu
          exact process_fs_mono filenameOf fetch compress wl rest _ _ hc
        · exact ih _ hokrest alt url hmem'
      · rw [Bool.not_eq_true] at hc
        cases hf : fetch url0 with
        | none => rw [hf] at hok0; exact Bool.noConfusion hok0
        | some bytes =>
          rw [processImage_eq_fetch filenameOf fetch compress wl st alt0 url0 bytes hc hf]
          rcases List.mem_cons.1 hmem with heq | hmem'
          · obtain ⟨ha, hu⟩ : alt = alt0 ∧ url = url0 := by
              injection heq with h1 h2
              exact ⟨h1, h2⟩
            subst hu
            refine process_fs_mono filenameOf fetch compress wl rest _ _ ?_
            simp [List.lookup]
          · exact ih _ hokrest alt url hmem'

theorem imagesCached_of_forall (fs : List (String × List Nat)) :
    ∀ (doc : List Segment),
    (∀ alt url, Segment.image alt url ∈ doc →
      (fs.lookup (cachePath filenameOf url)).isSome = true) →
    imagesCached filenameOf fs doc = true := by
  intro doc
  induction doc with
  | nil => intro _; rfl
  | cons seg rest ih =>
    intro h
    match seg with
    | Segment.text s =>
      rw [imagesCached]
      exact ih (fun alt url hm => h alt url (List.mem_cons_of_mem _ hm))
    | Segment.image alt0 url0 =>
      rw [imagesCached, Bool.and_eq_true]
      exact ⟨h alt0 url0 (List.mem_cons_self _ _),
        ih (fun alt url hm => h alt url (List.mem_cons_of_mem _ hm))⟩

/-- C6: externalizing a document whose remote references are all cached
performs no fetch and leaves the disk unchanged while still adding each
cache path to the touched set; and when every fetch succeeds, a second
run over the same document fetches nothing and writes nothing — each
image is fetched and written at most once across the two runs. -/
theorem processMarkdownImages_idempotent_caching (doc : List Segment) (st : ImgState) :
    (imagesCached filenameOf st.fs doc = true →
      (processMarkdownImages filenameOf fetch compress wl doc st).1.fs = st.fs ∧
      (processMarkdownImages filenameOf fetch compress wl doc st).1.fetches = st.fetches ∧
      ∀ alt url, Segment.image alt url ∈ doc →
        cachePath filenameOf url ∈
          (processMarkdownImages filenameOf fetch compress wl doc st).1.touched) ∧
    (fetchesOk fetch doc = true →
      (processMarkdownImages filenameOf fetch compress wl doc
          (processMarkdownImages filenameOf fetch compress wl doc st).1).1.fs =
        (processMarkdownImages filenameOf fetch compress wl doc st).1.fs ∧
      (processMarkdownImages filenameOf fetch compress wl doc
          (processMarkdownImages filenameOf fetch compress wl doc st).1).1.fetches =
        (processMarkdownImages filenameOf fetch compress wl doc st).1.fetches) := by
  constructor
  · exact process_cached filenameOf fetch compress wl doc st
  · intro hok
    have hcached : imagesCached filenameOf
        (processMarkdownImages filenameOf fetch compress wl doc st).1.fs doc = true :=
      imagesCached_of_forall filenameOf _ doc
        (fun alt url hm => process_fetches_cache filenameOf fetch compress wl doc st hok alt url hm)
    obtain ⟨h1, h2, _⟩ := process_cached filenameOf fetch compress wl doc _ hcached
    exact ⟨h1, h2⟩

theorem processMarkdownImages_idempotent_caching_witness :
    ((processMarkdownImages (fun u => u) (fun _ => some [7]) (fun b => b) false
        [Segment.image "x" "pic.png"] ⟨[("public/pic.png", [1])], [], 0⟩).1.fs =
      [("public/pic.png", [1])] ∧
    (processMarkdownImages (fun u => u) (fun _ => some [7]) (fun b => b) false
        [Segment.image "x" "pic.png"] ⟨[("public/pic.png", [1])], [], 0⟩).1.fetches = 0 ∧
    cachePath (fun u => u) "pic.png" ∈
      (processMarkdownImages (fun u => u) (fun _ => some [7]) (fun b => b) false
        [Segment.image "x" "pic.png"] ⟨[("public/pic.png", [1])], [], 0⟩).1.touched) := by
  have h := (processMarkdownImages_idempotent_caching (fun u => u) (fun _ => some [7])
    (fun b => b) false [Segment.image "x" "pic.png"]
    ⟨[("public/pic.png", [1])], [], 0⟩).1 (by decide)
  exact ⟨h.1, h.2.1, h.2.2 "x" "pic.png" (by decide)⟩

/-- No image of `doc` caches at path `p`. -/
def noImageAt (p : String) : List Segment → Bool
  | [] => true
  | Segment.text _ :: rest => noImageAt p rest
  | Segment.image _ u :: rest =>
    !(cachePath filenameOf u == p) && noImageAt p rest

/-- Frame property: the disk at a path no image of the document caches
to is untouched. -/
theorem process_fs_frame : ∀ (doc : List Segment) (st : ImgState) (p : String),
    noImageAt filenameOf p doc = true →
    ((processMarkdownImages filenameOf fetch compress wl doc st).1.fs).lookup p =
      st.fs.lookup p := by
  intro doc
  induction doc with
  | nil => intro st p _; rfl
  | cons seg rest ih =>
    intro st p hall
    match seg with
    | Segment.text s =>
      rw [noImageAt] at hall
      exact ih st p hall
    | Segment.image alt0 url0 =>
      rw [noImageAt, Bool.and_eq_true] at hall
      obtain ⟨hne, hrest⟩ := hall
      rw [processMarkdownImages]
      by_cases hc : (st.fs.lookup (cachePath filenameOf url0)).isSome = true
      · rw [processImage_eq_cached filenameOf fetch compress wl st alt0 url0 hc]
        exact ih _ p hrest
      · rw [Bool.not_eq_true] at hc
        cases hf : fetch url0 with
        | none =>
          rw [processImage_eq_fail filenameOf fetch compress wl st alt0 url0 hc hf]
          exact ih _ p hrest
        | some bytes =>
          rw [processImage_eq_fetch filenameOf fetch compress wl st alt0 url0 bytes hc hf]
          rw [ih _ p hrest]
          have hpq : (p == cachePath filenameOf url0) = false := by
            rw [Bool.not_eq_true'] at hne
            rw [beq_eq_false_iff_ne] at hne ⊢
            exact fun hcontr => hne hcontr.symm
          simp [List.lookup, hpq]

/-- C7: when the cache misses and the fetch fails, the reference stays
the original `![alt](remote-url)` in the output, the state advances only
by the touched-set entry and the attempted fetch (nothing written), and
processing continues with the remaining references; if no other
reference shares the cache path, no file exists there afterwards. -/
theorem processMarkdownImages_failed_fetch (alt url : String) (rest : List Segment)
    (st : ImgState)
    (hmiss : (st.fs.lookup (cachePath filenameOf url)).isSome = false)
    (hfail : fetch url = none) :
    processMarkdownImages filenameOf fetch compress wl (Segment.image alt url :: rest) st =
      ((processMarkdownImages filenameOf fetch compress wl rest
          ⟨st.fs, st.touched.insert (cachePath filenameOf url), st.fetches + 1⟩).1,
        Segment.image alt url ::
          (processMarkdownImages filenameOf fetch compress wl rest
            ⟨st.fs, st.touched.insert (cachePath filenameOf url), st.fetches + 1⟩).2) ∧
    (noImageAt filenameOf (cachePath filenameOf url) rest = true →
      ((processMarkdownImages filenameOf fetch compress wl
          (Segment.image alt url :: rest) st).1.fs).lookup (cachePath filenameOf url) = none) := by
  constructor
  · rw [processMarkdownImages,
      processImage_eq_fail filenameOf fetch compress wl st alt url hmiss hfail]
  · intro hno
    rw [processMarkdownImages,
      processImage_eq_fail filenameOf fetch compress wl st alt url hmiss hfail]
    rw [process_fs_frame filenameOf fetch compress wl rest _ _ hno]
    cases hl : st.fs.lookup (cachePath filenameOf url) with
    | none => rfl
    | some v => rw [hl] at hmiss; exact Bool.noConfusion hmiss

theorem processMarkdownImages_failed_fetch_witness :
    processMarkdownImages (fun u => u) (fun _ => none) (fun b => b) false
        [Segment.image "x" "bad.png", Segment.image "y" "other.png"] ⟨[], [], 0⟩ =
      ((processMarkdownImages (fun u => u) (fun _ => none) (fun b => b) false
          [Segment.image "y" "other.png"]
          ⟨[], List.insert (cachePath (fun u => u) "bad.png") [], 0 + 1⟩).1,
        Segment.image "x" "bad.png" ::
          (processMarkdownImages (fun u => u) (fun _ => none) (fun b => b) false
            [Segment.image "y" "other.png"]
            ⟨[], List.insert (cachePath (fun u => u) "bad.png") [], 0 + 1⟩).2) ∧
    (noImageAt (fun u => u) (cachePath (fun u => u) "bad.png")
        [Segment.image "y" "other.png"] = true →
      ((processMarkdownImages (fun u => u) (fun _ => none) (fun b => b) false
          [Segment.image "x" "bad.png", Segment.image "y" "other.png"]
          ⟨[], [], 0⟩).1.fs).lookup (cachePath (fun u => u) "bad.png") = none) :=
  processMarkdownImages_failed_fetch (fun u => u) (fun _ => none) (fun b => b) false
    "x" "bad.png" [Segment.image "y" "other.png"] ⟨[], [], 0⟩ (by decide) rfl

end Images

/-! ## Renderer (`parseMarkdown`, `renderer.image`)

Markup is modelled as a tree of text and element nodes.  The markdown
renderer (`marked`) is an out-of-scope library capability and enters as
a parameter producing arbitrary nodes; `renderer.image` (which is source
code of the repository) is embedded as the element the emitted string
denotes.  The sanitizer is the out-of-scope `sanitize-html` collaborator
configured by `parseMarkdown`. -/

namespace Render

/-- An HTML node: a text node, or an element with its attributes and
children. -/
inductive Node where
  | text (s : String)
  | elem (tag : String) (attrs : List (String × String)) (children : List Node)

/-- Modelled from the spec: `sanitize-html`'s default safe tag
allow-list ("strip any element/attribute not in the default safe
allow-list"); the library is consumed as a black-box capability and its
documented default list is reproduced here.  `script` is not in it. -/
def defaultAllowedTags : List String :=
  ["address", "article", "aside", "footer", "header", "h1", "h2", "h3",
   "h4", "h5", "h6", "hgroup", "main", "nav", "section", "blockquote",
   "dd", "div", "dl", "dt", "figcaption", "figure", "hr", "li", "ol",
   "p", "pre", "ul", "a", "abbr", "b", "bdi", "bdo", "br", "cite",
   "code", "data", "dfn", "em", "i", "kbd", "mark", "q", "rb", "rp",
   "rt", "rtc", "ruby", "s", "samp", "small", "span", "strong", "sub",
   "sup", "time", "u", "var", "wbr", "caption", "col", "colgroup",
   "table", "tbody", "td", "tfoot", "th", "thead", "tr"]

/-- The allow-list `parseMarkdown` configures:
`sanitizeHtml.defaults.allowedTags.concat(["img"])`. -/
def allowedTags : List String := defaultAllowedTags ++ ["img"]

/-- Modelled from the spec: tags whose whole content `sanitize-html`
discards when the tag is disallowed (its documented `nonTextTags`);
for any other disallowed tag the children are kept. -/
def nonTextTags : List String := ["script", "style", "textarea", "option"]

/-- The attribute allow-list `parseMarkdown` configures: the defaults
(`a` with `href`, `name`, `target`) spread together with
`img: ["src", "alt", "title", "loading", "decoding"]`. -/
def allowedAttrsFor (tag : String) : List String :=
  if tag = "a" then ["href", "name", "target"]
  else if tag = "img" then ["src", "alt", "title", "loading", "decoding"]
  else []

/-- Modelled from the spec: the sanitizer's default allowed URL schemes. -/
def allowedSchemes : List String := ["http", "https", "ftp", "mailto"]

/-- The scheme of a URL value: the part before a `:` that occurs before
any `/`, `?` or `#`; `none` for scheme-relative and relative values. -/
def schemeOf (v : String) : Option String :=
  let cs := v.toList
  let pre := cs.takeWhile (fun c => !(c = ':' ∨ c = '/' ∨ c = '?' ∨ c = '#'))
  if pre.length < cs.length ∧ cs.getD pre.length ' ' = ':' then
    some (Cleanup.lowerStr (String.mk pre))
  else none

/-- A URL-valued attribute survives only with an allowed (or no)
scheme. -/
def schemeAllowed (v : String) : Bool :=
  match schemeOf v with
  | none => true
  | some s => allowedSchemes.contains s

/-- Whether the sanitizer keeps one attribute of an element: the name
must be allowed for the tag, and `href`/`src` values must carry an
allowed scheme. -/
def keepAttr (tag : String) (kv : String × String) : Bool :=
  (allowedAttrsFor tag).contains kv.1 &&
    (!(kv.1 == "href" || kv.1 == "src") || schemeAllowed kv.2)

/-- The sanitizer: allowed elements keep their filtered attributes and
sanitized children; a disallowed `nonTextTags` element disappears with
its whole content; any other disallowed element is stripped, splicing
its sanitized children in place. -/
def sanitizeNodes : List Node → List Node
  | [] => []
  | Node.text s :: rest => Node.text s :: sanitizeNodes rest
  | Node.elem tag attrs children :: rest =>
    if allowedTags.contains tag then
      Node.elem tag (attrs.filter (keepAttr tag)) (sanitizeNodes children) :: sanitizeNodes rest
    else if nonTextTags.contains tag then sanitizeNodes rest
    else sanitizeNodes children ++ sanitizeNodes rest

/-- Whether markup contains an element with the given tag, at any
depth. -/
def containsTag (t : String) : List Node → Bool
  | [] => false
  | Node.text _ :: rest => containsTag t rest
  | Node.elem tag _ children :: rest => tag == t || containsTag t children || containsTag t rest

/-- The source's `renderer.image`: a null destination renders the bare
alt text; otherwise an `img` element with the lazy-loading and
async-decoding hints, the destination, the alt text, and the title when
present (the source emits this element as a string; it is embedded as
the element that string denotes). -/
def rendererImage (href : Option String) (title : Option String) (text : String) : List Node :=
  match href with
  | none => [Node.text text]
  | some h =>
    [Node.elem "img"
      ([("loading", "lazy"), ("decoding", "async"), ("src", h), ("alt", text)] ++
        (match title with
          | some t => [("title", t)]
          | none => []))
      []]

/-- The source's `parseMarkdown`: render (the out-of-scope markdown library, a
parameter here) then sanitize. -/
def parseMarkdown (markedParse : String → List Node) (markdown : String) : List Node :=
  sanitizeNodes (markedParse markdown)

theorem containsTag_append (t : String) : ∀ (l₁ l₂ : List Node),
    containsTag t (l₁ ++ l₂) = (containsTag t l₁ || containsTag t l₂) := by
  intro l₁
  induction l₁ with
  | nil => intro l₂; simp [containsTag]
  | cons x rest ih =>
    intro l₂
    match x with
    | Node.text s => rw [List.cons_append, containsTag, containsTag, ih]
    | Node.elem tag attrs children =>
      rw [List.cons_append, containsTag, containsTag, ih]
      simp [Bool.or_assoc]

/-- Sanitized markup only contains allowed element tags. -/
theorem sanitize_no_banned (t : String) (hAllowed : allowedTags.contains t = false) :
    ∀ (nodes : List Node), containsTag t (sanitizeNodes nodes) = false := by
  intro nodes
  induction nodes using sanitizeNodes.induct with
  | case1 => rw [sanitizeNodes, containsTag]
  | case2 s rest ih => rw [sanitizeNodes, containsTag]; exact ih
  | case3 tag attrs children rest hc ihc ihr =>
    rw [sanitizeNodes, if_pos hc, containsTag, ihc, ihr]
    have hne : (tag == t) = false := by
      rw [beq_eq_false_iff_ne]
      intro heq
      rw [heq] at hc
      rw [hc] at hAllowed
      exact Bool.noConfusion hAllowed
    rw [hne]
    rfl
  | case4 tag attrs children rest hc hnt ihr =>
    rw [sanitizeNodes, if_neg hc, if_pos hnt]
    exact ihr
  | case5 tag attrs children rest hc hnt ihc ihr =>
    rw [sanitizeNodes, if_neg hc, if_neg hnt, containsTag_append, ihc, ihr]
    rfl

/-- C1: whatever markup the markdown renderer produces — in particular
for a document whose raw text contains a literal `<script>` tag —
`parseMarkdown` never emits a `script` element; and an image reference
with a destination and alt text renders, after sanitization, as an
`img` element still carrying `loading="lazy"`, `decoding="async"` and
the unchanged alt text. -/
theorem parseMarkdown_script_free_and_image :
    (∀ (markedParse : String → List Node) (markdown : String),
      containsTag "script" (parseMarkdown markedParse markdown) = false) ∧
    (∀ (href alt : String) (title : Option String),
      ∃ attrs : List (String × String),
        sanitizeNodes (rendererImage (some href) title alt) =
          [Node.elem "img" attrs []] ∧
        ("loading", "lazy") ∈ attrs ∧
        ("decoding", "async") ∈ attrs ∧
        ("alt", alt) ∈ attrs) := by
  constructor
  · intro markedParse markdown
    exact sanitize_no_banned "script" (by decide) (markedParse markdown)
  · intro href alt title
    refine ⟨(([("loading", "lazy"), ("decoding", "async"), ("src", href), ("alt", alt)] ++
      (match title with
        | some t => [("title", t)]
        | none => [])).filter (keepAttr "img")), ?_, ?_, ?_, ?_⟩
    · show sanitizeNodes [Node.elem "img" _ []] = _
      rw [sanitizeNodes, if_pos (by decide)]
      rw [show sanitizeNodes [] = [] from by rw [sanitizeNodes]]
    · exact List.mem_filter.2 ⟨List.mem_append_left _ (by simp), by decide⟩
    · exact List.mem_filter.2 ⟨List.mem_append_left _ (by simp), by decide⟩
    · exact List.mem_filter.2 ⟨List.mem_append_left _ (by simp), rfl⟩

end Render

/-! ## Dev loop (`debounce`, `handleRebuild`, `triggerReload`)

The debounce wrapper holds one `timeout` slot: every notification clears
the pending timer and arms a new one `waitFor` later; a timer that is
not cleared fires and runs the rebuild.  For nondecreasing notification
times `t₁ ≤ t₂ ≤ …`, the timer armed at `tᵢ` therefore fires at
`tᵢ + waitFor` exactly when the next notification does not arrive
strictly earlier — `fireTimes` lists those fire instants.  A rebuild
started at fire instant `f` with duration `D` occupies `[f, f + D)`;
nothing in the source waits for an in-flight rebuild before the next
timer fires.  `triggerReload` models the broadcast loop over
`liveReloadClients`, and `rebuildAndNotify` the body of `handleRebuild`
(broadcast only when `compile` succeeded; a failure is caught and
logged). -/

namespace DevLoop

/-- The debounce window of `handleRebuild` (`debounce(…, 100)`). -/
def waitFor : Nat := 100

/-- The instants at which the debounced rebuild actually runs, given the
nondecreasing notification instants. -/
def fireTimes (w : Nat) : List Nat → List Nat
  | [] => []
  | [t] => [t + w]
  | t₁ :: t₂ :: ts => (if t₂ < t₁ + w then [] else [t₁ + w]) ++ fireTimes w (t₂ :: ts)

/-- A connected live-reload client: its response stream state and the
event-stream messages written to it. -/
structure Client where
  id : Nat
  writableEnded : Bool
  received : List String
deriving DecidableEq, Repr

/-- The SSE payload `triggerReload` writes. -/
def reloadMsg : String := "data: reload\n\n"

/-- The source's `triggerReload`: write the reload event to every client whose
connection is still writable. -/
def triggerReload (clients : List Client) : List Client :=
  clients.map (fun c =>
    if !c.writableEnded then { c with received := c.received ++ [reloadMsg] } else c)

/-- The body of `handleRebuild` once the debounce timer fires: run
`compile(true)`; on success broadcast the reload, on failure (caught)
only log, leaving the clients untouched. -/
def rebuildAndNotify (compileOk : Bool) (clients : List Client) : List Client :=
  if compileOk then triggerReload clients else clients

/-- C2: notifications forming one burst — each arriving strictly before
the pending timer expires — collapse to exactly one rebuild, at the last
notification plus the debounce window; and after a rebuild each
connected client receives the reload message iff the rebuild succeeded
and its connection is still open; on failure nothing is broadcast. -/
theorem debounce_burst_and_broadcast :
    (∀ (w t : Nat) (ts : List Nat),
      List.Chain' (fun a b => b < a + w) (t :: ts) →
      fireTimes w (t :: ts) = [(t :: ts).getLast (List.cons_ne_nil t ts) + w]) ∧
    (∀ (ok : Bool) (clients : List Client),
      rebuildAndNotify ok clients = clients.map (fun c =>
        if ok = true ∧ c.writableEnded = false
        then { c with received := c.received ++ [reloadMsg] }
        else c)) ∧
    (∀ clients : List Client, rebuildAndNotify false clients = clients) := by
  refine ⟨?_, ?_, fun clients => rfl⟩
  · intro w t ts
    induction ts generalizing t with
    | nil => intro _; rfl
    | cons t₂ ts' ih =>
      intro hchain
      obtain ⟨h1, h2⟩ := List.chain'_cons.1 hchain
      rw [fireTimes, if_pos h1, List.nil_append, ih t₂ h2,
        List.getLast_cons (List.cons_ne_nil t₂ ts')]
  · intro ok clients
    cases ok with
    | false =>
      show clients = _
      have hfun : (fun c : Client =>
          if false = true ∧ c.writableEnded = false
          then { c with received := c.received ++ [reloadMsg] }
          else c) = fun c => c :=
        funext (fun c => by rw [if_neg (by simp)])
      rw [hfun, List.map_id']
    | true =>
      show triggerReload clients = _
      unfold triggerReload
      apply List.map_eq_map_iff.mpr
      intro c _
      cases hw : c.writableEnded with
      | false => simp [hw]
      | true => simp [hw]

theorem debounce_burst_and_broadcast_witness :
    List.Chain' (fun a b => b < a + waitFor) [0, 50, 120] ∧
    fireTimes waitFor [0, 50, 120] =
      [([0, 50, 120].getLast (List.cons_ne_nil 0 [50, 120])) + waitFor] :=
  have hch : List.Chain' (fun a b => b < a + waitFor) [0, 50, 120] :=
    List.chain'_cons.2 ⟨by decide, List.chain'_cons.2 ⟨by decide, List.chain'_singleton _⟩⟩
  ⟨hch, debounce_burst_and_broadcast.1 waitFor 0 [50, 120] hch⟩

/-- The half-open execution interval of each rebuild, for rebuilds of
duration `D`. -/
def rebuildIntervals (w D : Nat) (times : List Nat) : List (Nat × Nat) :=
  (fireTimes w times).map (fun f => (f, f + D))

/-- Two consecutive execution intervals overlap somewhere in the list. -/
def overlapping : List (Nat × Nat) → Bool
  | [] => false
  | [_] => false
  | (_, e₁) :: (s₂, e₂) :: rest => decide (s₂ < e₁) || overlapping ((s₂, e₂) :: rest)

/-- C3 is false as stated: with the 100 ms window and a rebuild lasting
200, a notification at 0 starts a rebuild occupying `[100, 300)`; the
notification at 150 arrives while that rebuild is in flight, and —
because the debounce wrapper never waits for an in-flight execution —
the timer it arms fires at 250, starting a second pass that overlaps
the first (`[250, 450)` meets `[100, 300)`). -/
theorem debounce_overlap_counterexample :
    fireTimes waitFor [0, 150] = [100, 250] ∧
    (100 ≤ 150 ∧ 150 < 300) ∧
    rebuildIntervals waitFor 200 [0, 150] = [(100, 300), (250, 450)] ∧
    overlapping (rebuildIntervals waitFor 200 [0, 150]) = true := by decide

/-- Every rebuild fires no earlier than one window after the first
notification. -/
theorem fireTimes_lower (w : Nat) : ∀ (ts : List Nat) (t : Nat),
    List.Chain' (fun a b => a ≤ b) (t :: ts) →
    ∀ f ∈ fireTimes w (t :: ts), t + w ≤ f := by
  intro ts
  induction ts with
  | nil =>
    intro t _ f hf
    rw [fireTimes] at hf
    rcases List.mem_cons.1 hf with heq | hmem
    · omega
    · exact absurd hmem (List.not_mem_nil f)
  | cons t₂ ts' ih =>
    intro t hchain f hf
    obtain ⟨h1, h2⟩ := List.chain'_cons.1 hchain
    rw [fireTimes] at hf
    rcases List.mem_append.1 hf with hmem | hmem
    · by_cases hlt : t₂ < t + w
      · rw [if_pos hlt] at hmem
        exact absurd hmem (List.not_mem_nil f)
      · rw [if_neg hlt] at hmem
        rcases List.mem_cons.1 hmem with heq | hmem'
        · omega
        · exact absurd hmem' (List.not_mem_nil f)
    · have := ih t₂ h2 f hmem
      omega

/-- Consecutive rebuild starts are at least one debounce window apart. -/
theorem fireTimes_spaced (w : Nat) : ∀ (ts : List Nat) (t : Nat),
    List.Chain' (fun a b => a ≤ b) (t :: ts) →
    List.Chain' (fun f g => f + w ≤ g) (fireTimes w (t :: ts)) := by
  intro ts
  induction ts with
  | nil => intro t _; rw [fireTimes]; exact List.chain'_singleton _
  | cons t₂ ts' ih =>
    intro t hchain
    obtain ⟨h1, h2⟩ := List.chain'_cons.1 hchain
    rw [fireTimes]
    by_cases hlt : t₂ < t + w
    · rw [if_pos hlt, List.nil_append]
      exact ih t₂ h2
    · rw [if_neg hlt, List.singleton_append]
      rw [List.chain'_cons']
      refine ⟨?_, ih t₂ h2⟩
      intro g hg
      have hgm : g ∈ fireTimes w (t₂ :: ts') := List.mem_of_mem_head? hg
      have := fireTimes_lower w ts' t₂ h2 g hgm
      omega

theorem no_overlap_of_spaced (w D : Nat) (hD : D ≤ w) :
    ∀ (l : List Nat), List.Chain' (fun f g => f + w ≤ g) l →
    overlapping (l.map (fun f => (f, f + D))) = false := by
  intro l
  induction l with
  | nil => intro _; rfl
  | cons f l' ih =>
    intro hchain
    match l' with
    | [] => rfl
    | g :: rest =>
      obtain ⟨h1, h2⟩ := List.chain'_cons.1 hchain
      have ihh := ih h2
      rw [List.map_cons] at ihh
      rw [List.map_cons, List.map_cons, overlapping, ihh]
      have hng : ¬ (g < f + D) := by omega
      simp [hng]

/-- C3 (amended): the debounce wrapper keeps one pending timer, so
consecutive rebuild starts lie at least one debounce window apart, and
rebuild executions never overlap provided every rebuild finishes within
the window; a notification arriving during an in-flight rebuild arms a
fresh timer for the next rebuild, and when a rebuild runs longer than
the window that next pass can start before the in-flight one finishes
(see the counterexample). -/
theorem debounce_serializes_when_fast (w D t : Nat) (ts : List Nat)
    (hsorted : List.Chain' (fun a b => a ≤ b) (t :: ts))
    (hD : D ≤ w) :
    List.Chain' (fun f g => f + w ≤ g) (fireTimes w (t :: ts)) ∧
    overlapping (rebuildIntervals w D (t :: ts)) = false := by
  have h1 := fireTimes_spaced w ts t hsorted
  exact ⟨h1, no_overlap_of_spaced w D hD _ h1⟩

theorem debounce_serializes_when_fast_witness :
    List.Chain' (fun f g => f + waitFor ≤ g) (fireTimes waitFor [0, 150]) ∧
    overlapping (rebuildIntervals waitFor 100 [0, 150]) = false :=
  debounce_serializes_when_fast waitFor 100 0 [150]
    (List.chain'_cons.2 ⟨by decide, List.chain'_singleton _⟩) (by decide)

end DevLoop

end FastMd
